import Mathlib

/-!
Verification development for a Discord chat-relay bot ("Jarvis").

We shallowly embed the conversation-orchestration core of `bot.py` and the
search gating of `services/search.py`:

* the role-normalization pass that builds `api_messages` from the stored
  history (`query_lmstudio`, bot.py lines 310-327);
* the per-exchange history evolution of `query_lmstudio` (context preload,
  user append, trim to the most recent `MAX_HISTORY * 2` entries, assistant
  append on success / `pop()` rollback on failure, statistics update);
* the sliding-window rate limiter `check_rate_limit` of `services/search.py`;
* the search wrapper `get_web_context` with its fallback retry;
* the thinking-tag filter `remove_thinking_tags`, modelling the Python
  `re.sub` passes on lists of characters;
* the 2000-character chunking of a final answer in `on_message`.

Machine strings are modelled as `List Char` where character-level scanning
matters, and `String` elsewhere; timestamps are `Int` seconds; Python float
response times are opaque `Nat` tokens (their numeric value is never used).
-/

namespace Jarvis

/-! ### Roles and messages

`conversation_histories` only ever receives entries with role `"user"`
(user turns and preloaded context, bot.py lines 138, 140, 285-293) or
`"assistant"` (bot.py lines 320, 378-381), so the role type has exactly
those two inhabitants.  Message content is modelled as a plain string;
no claim depends on the structured image-block form of content. -/

inductive Role where
  | user
  | assistant
deriving DecidableEq, Repr

structure Msg where
  role : Role
  content : String
deriving DecidableEq, Repr

/-! ### Role normalization (bot.py lines 310-327)

```
api_messages = []
for msg in conversation_histories[conversation_id]:
    current_role = msg["role"]
    if api_messages:
        last_role = api_messages[-1]["role"]
        if current_role == last_role:
            if current_role == "user":
                api_messages.append({"role": "assistant", "content": "Understood."})
            else:
                continue
    api_messages.append(msg)
if api_messages and api_messages[-1]["role"] == "assistant":
    api_messages.pop()
```
-/

def understoodMsg : Msg := ⟨Role.assistant, "Understood."⟩

def normStep (acc : List Msg) (m : Msg) : List Msg :=
  match acc.getLast? with
  | none => [m]
  | some last =>
    if last.role = m.role then
      if m.role = Role.user then acc ++ [understoodMsg, m]
      else acc
    else acc ++ [m]

def buildApiMessages (history : List Msg) : List Msg :=
  history.foldl normStep []

def normalize (history : List Msg) : List Msg :=
  match (buildApiMessages history).getLast? with
  | some last =>
    if last.role = Role.assistant then (buildApiMessages history).dropLast
    else buildApiMessages history
  | none => buildApiMessages history

/-! ### Session statistics (bot.py lines 114-120, 383-387)

`estimate_tokens` is `len(text) // 4`.  `response_times` is appended to
without any bound (line 387); `MAX_RESPONSE_TIMES = 100` exists in
`config/constants.py` but is never consulted by `bot.py`. -/

def estimate_tokens (text : String) : Nat :=
  text.length / 4

structure SessionStats where
  totalMessages : Nat
  totalTokensEstimate : Nat
  lastMessageSet : Bool
  responseTimes : List Nat
deriving DecidableEq, Repr

def initStats : SessionStats :=
  { totalMessages := 0, totalTokensEstimate := 0, lastMessageSet := false,
    responseTimes := [] }

def updateStats (st : SessionStats) (userText assistantText : String)
    (elapsed : Nat) : SessionStats :=
  { totalMessages := st.totalMessages + 2,
    totalTokensEstimate :=
      st.totalTokensEstimate + estimate_tokens userText + estimate_tokens assistantText,
    lastMessageSet := true,
    responseTimes := st.responseTimes ++ [elapsed] }

/-! ### One exchange of `query_lmstudio` (bot.py lines 265-400)

The generator, per exchange:
1. if the history is empty, the context flag unset and `CONTEXT_MESSAGES > 0`,
   extends the history with the fetched recent context (lines 269-273);
2. appends the user turn (lines 285-293);
3. trims to the most recent `MAX_HISTORY * 2` entries when longer
   (lines 307-308) — note Python's `xs[-(k):]` is the whole list when `k = 0`;
4. streams; on HTTP 200 it yields the non-empty deltas, appends the raw
   assistant message and updates the stats (lines 349-387); on a non-200
   status, an `aiohttp.ClientError` or any other exception it pops the last
   history entry and yields a single error string (lines 388-400).
-/

inductive StreamOutcome where
  | success (chunks : List String) (elapsed : Nat)
  | httpError (status : Nat)
  | clientError (detail : String)
  | unexpected (detail : String)
deriving DecidableEq, Repr

def StreamOutcome.isFailure : StreamOutcome → Bool
  | .success _ _ => false
  | _ => true

def errorText : StreamOutcome → String
  | .success _ _ => ""
  | .httpError status => "Error: LMStudio API returned status " ++ toString status
  | .clientError _ => "Error: Could not connect to LMStudio. Is it running?"
  | .unexpected detail => "Error: " ++ detail

structure ExchangeInput where
  ctx : List Msg
  messageText : String
  outcome : StreamOutcome
deriving DecidableEq, Repr

structure ConvState where
  history : List Msg
  contextLoaded : Bool
  stats : SessionStats
deriving DecidableEq, Repr

def initConvState : ConvState :=
  { history := [], contextLoaded := false, stats := initStats }

/-- Python `xs[-(k):]`: the last `k` elements, except that `k = 0` gives
`xs[0:]`, i.e. the whole list. -/
def pySliceLast (k : Nat) (xs : List Msg) : List Msg :=
  if k = 0 then xs else xs.drop (xs.length - k)

/-- The context-preload condition of bot.py line 269. -/
def preloadCond (contextMessages : Nat) (s : ConvState) : Prop :=
  s.history = [] ∧ s.contextLoaded = false ∧ 0 < contextMessages

instance (contextMessages : Nat) (s : ConvState) :
    Decidable (preloadCond contextMessages s) := by
  unfold preloadCond
  infer_instance

/-- The history after the optional context preload (bot.py lines 269-273). -/
def preHistory (contextMessages : Nat) (s : ConvState) (ctx : List Msg) : List Msg :=
  if preloadCond contextMessages s then s.history ++ ctx else s.history

def loadedFlag (contextMessages : Nat) (s : ConvState) : Bool :=
  if preloadCond contextMessages s then true else s.contextLoaded

/-- The trim of bot.py lines 307-308. -/
def trimHistory (maxHistory : Nat) (l : List Msg) : List Msg :=
  if maxHistory * 2 < l.length then pySliceLast (maxHistory * 2) l else l

def queryStep (maxHistory contextMessages : Nat) (s : ConvState)
    (e : ExchangeInput) : ConvState × List String :=
  let h2 := trimHistory maxHistory
    (preHistory contextMessages s e.ctx ++ [⟨Role.user, e.messageText⟩])
  match e.outcome with
  | .success chunks elapsed =>
    (⟨h2 ++ [⟨Role.assistant, String.join chunks⟩], loadedFlag contextMessages s,
      updateStats s.stats e.messageText (String.join chunks) elapsed⟩, chunks)
  | outcome =>
    (⟨h2.dropLast, loadedFlag contextMessages s, s.stats⟩, [errorText outcome])

def runExchanges (maxHistory contextMessages : Nat)
    (es : List ExchangeInput) : ConvState :=
  es.foldl (fun s e => (queryStep maxHistory contextMessages s e).1) initConvState

/-! ### Search rate limiting (services/search.py lines 37-104)

Timestamps are `Int` seconds; `timedelta(hours=1)` is 3600 and
`timedelta(minutes=1)` is 60, both compared strictly as in the source.
The source mutates `user_search_history[user_id]` in place before any
rejection can happen, and `guild_search_history[guild_id]` only once the
user checks passed; the model returns the updated windows explicitly. -/

structure RateLimitConfig where
  calls_per_minute : Nat
  calls_per_hour : Nat
  cooldown_seconds : Nat
deriving DecidableEq, Repr

structure RateCheckResult where
  allowed : Bool
  message : String
  userHistory : List Int
  guildHistory : List Int
deriving DecidableEq, Repr

/-- The 1-hour lazy pruning applied to a window (`[ts for ts in history if
current_time - ts < timedelta(hours=1)]`). -/
def pruneHour (history : List Int) (currentTime : Int) : List Int :=
  history.filter (fun ts => currentTime - ts < 3600)

/-- The per-minute sub-window of an already pruned window. -/
def recentMinute (prunedHistory : List Int) (currentTime : Int) : List Int :=
  prunedHistory.filter (fun ts => currentTime - ts < 60)

def check_rate_limit (cfgUser cfgGuild : RateLimitConfig)
    (userHistory guildHistory : List Int) (currentTime : Int) : RateCheckResult :=
  if cfgUser.calls_per_minute ≤ (recentMinute (pruneHour userHistory currentTime) currentTime).length then
    { allowed := false,
      message := "⏱️ You're searching too frequently. Please wait "
        ++ toString cfgUser.cooldown_seconds ++ " seconds.",
      userHistory := pruneHour userHistory currentTime, guildHistory := guildHistory }
  else if cfgUser.calls_per_hour ≤ (pruneHour userHistory currentTime).length then
    { allowed := false,
      message := "⏱️ You've reached your hourly search limit ("
        ++ toString cfgUser.calls_per_hour ++ "). Please try again later.",
      userHistory := pruneHour userHistory currentTime, guildHistory := guildHistory }
  else if cfgGuild.calls_per_minute ≤ (recentMinute (pruneHour guildHistory currentTime) currentTime).length then
    { allowed := false,
      message := "⏱️ This server is searching too frequently. Please wait a moment.",
      userHistory := pruneHour userHistory currentTime,
      guildHistory := pruneHour guildHistory currentTime }
  else
    { allowed := true, message := "",
      userHistory := pruneHour userHistory currentTime ++ [currentTime],
      guildHistory := pruneHour guildHistory currentTime ++ [currentTime] }

/-! ### Thinking-tag filter (bot.py lines 155-185)

`remove_thinking_tags` applies, in order, eight `re.sub` passes and a final
`strip()`:

```
cleaned = re.sub(r'<think>.*?</think>', '', text, flags=re.DOTALL | re.IGNORECASE)
cleaned = re.sub(r'\[THINK\].*?\[/THINK\]', '', cleaned, flags=re.DOTALL | re.IGNORECASE)
cleaned = re.sub(r'<think\s*/>', '', cleaned, flags=re.IGNORECASE)
cleaned = re.sub(r'\[THINK\s*/\]', '', cleaned, flags=re.IGNORECASE)
cleaned = re.sub(r'<\|begin_of_box\|>', '', cleaned, flags=re.IGNORECASE)
cleaned = re.sub(r'<\|end_of_box\|>', '', cleaned, flags=re.IGNORECASE)
cleaned = re.sub(r'\n\s*\n\s*\n', '\n\n', cleaned)
cleaned = cleaned.strip()
```

Each pass is modelled on `List Char` with Python `re.sub` semantics: scan
left to right, replace the leftmost match, continue scanning after the
replaced span (replacements are not rescanned).

* For a constant pattern (the box markers) a match is a case-insensitive
  occurrence (`subAllCI`).
* For `O.*?C` with DOTALL, the leftmost match starts at the first position
  where `O` matches and some occurrence of `C` starts at or after the end of
  `O`; the lazy `.*?` makes it end at the first such `C` (`removePairsCI`).
  When an occurrence of `O` has no `C` after it, no later start can match
  either, so the rest of the text is left unchanged.
* For `A\s*B` where `B` starts with a non-whitespace character, the greedy
  `\s*` can only match the whole whitespace run after `A` (any shorter
  choice leaves a whitespace character where `B` must start), so a match is
  `A`, the maximal run, then `B` (`removeSelfCloseCI`).
* For `\n\s*\n\s*\n`, a match starts at a newline whose maximal whitespace
  run contains at least three newlines, and greedy backtracking extends it
  exactly to the last newline of that run (`collapseBlank`).

Python `\s` is modelled as the six ASCII whitespace characters. -/

def pyIsSpace (c : Char) : Bool :=
  c = ' ' || c = '\t' || c = '\n' || c = '\r' || c = '\x0b' || c = '\x0c'

/-- Case-insensitive character comparison (`re.IGNORECASE`). -/
def ciEq (a b : Char) : Bool :=
  a.toLower = b.toLower

/-- Does `pat` match case-insensitively at the head of `s`? -/
def ciStartsWith : List Char → List Char → Bool
  | [], _ => true
  | _ :: _, [] => false
  | p :: ps, c :: cs => ciEq p c && ciStartsWith ps cs

/-- Index of the leftmost case-insensitive occurrence of `pat` in `s`. -/
def findIdxCI (pat : List Char) (s : List Char) : Option Nat :=
  match s with
  | [] => none
  | _ :: rest =>
    if ciStartsWith pat s then some 0
    else (findIdxCI pat rest).map (· + 1)

def containsCI (pat s : List Char) : Bool :=
  (findIdxCI pat s).isSome

/-- `re.sub(pat, '', s)` for a constant pattern, case-insensitively. -/
def subAllCI (pat : List Char) (s : List Char) : List Char :=
  match pat, s with
  | [], _ => s
  | _ :: _, [] => []
  | p :: ps, c :: cs =>
    if ciStartsWith (p :: ps) (c :: cs) then
      subAllCI (p :: ps) ((c :: cs).drop (p :: ps).length)
    else
      c :: subAllCI (p :: ps) cs
termination_by s.length
decreasing_by
  · simp only [List.length_drop, List.length_cons]
    omega
  · simp only [List.length_cons]
    omega

/-- Number of non-overlapping case-insensitive occurrences of `pat` in `s`,
as counted by `len(re.findall(pat, s, flags=re.IGNORECASE))`
(bot.py lines 180-183). -/
def countOccCI (pat : List Char) (s : List Char) : Nat :=
  match pat, s with
  | [], _ => 0
  | _ :: _, [] => 0
  | p :: ps, c :: cs =>
    if ciStartsWith (p :: ps) (c :: cs) then
      countOccCI (p :: ps) ((c :: cs).drop (p :: ps).length) + 1
    else
      countOccCI (p :: ps) cs
termination_by s.length
decreasing_by
  · simp only [List.length_drop, List.length_cons]
    omega
  · simp only [List.length_cons]
    omega

/-- `re.sub(O + '.*?' + C, '', s, flags=re.DOTALL | re.IGNORECASE)`. -/
def removePairsCI (openTag closeTag : List Char) (s : List Char) : List Char :=
  match openTag, closeTag, s with
  | [], _, _ => s
  | _ :: _, [], _ => s
  | _ :: _, _ :: _, [] => []
  | o :: os, k :: ks, c :: cs =>
    if ciStartsWith (o :: os) (c :: cs) then
      match findIdxCI (k :: ks) ((c :: cs).drop (o :: os).length) with
      | some j =>
        removePairsCI (o :: os) (k :: ks)
          ((((c :: cs).drop (o :: os).length)).drop (j + (k :: ks).length))
      | none => c :: cs
    else
      c :: removePairsCI (o :: os) (k :: ks) cs
termination_by s.length
decreasing_by
  · simp only [List.length_drop, List.length_cons]
    omega
  · simp only [List.length_cons]
    omega

/-- `re.sub(A + '\s*' + B, '', s, flags=re.IGNORECASE)` where `B` starts
with a non-whitespace character (the self-closing tag forms). -/
def removeSelfCloseCI (litHead litTail : List Char) (s : List Char) : List Char :=
  match litHead, litTail, s with
  | [], _, _ => s
  | _ :: _, [], _ => s
  | _ :: _, _ :: _, [] => []
  | x :: xs, y :: ys, c :: cs =>
    if ciStartsWith (x :: xs) (c :: cs) then
      let t := (c :: cs).drop (x :: xs).length
      let w := (t.takeWhile pyIsSpace).length
      if ciStartsWith (y :: ys) (t.drop w) then
        removeSelfCloseCI (x :: xs) (y :: ys) ((t.drop w).drop (y :: ys).length)
      else
        c :: removeSelfCloseCI (x :: xs) (y :: ys) cs
    else
      c :: removeSelfCloseCI (x :: xs) (y :: ys) cs
termination_by s.length
decreasing_by
  · simp only [List.length_drop, List.length_cons]
    omega
  · simp only [List.length_cons]
    omega
  · simp only [List.length_cons]
    omega

/-- The maximal whitespace run at the head of `s`. -/
def wsRun (s : List Char) : List Char :=
  s.takeWhile pyIsSpace

/-- Number of whitespace characters after the last newline of the run. -/
def trailingNonNL (run : List Char) : Nat :=
  (run.reverse.takeWhile (fun c => !(c = '\n'))).length

/-- Length of the `\n\s*\n\s*\n` match starting at the head of `s`
(meaningful only when `blankMatchAt s`): up to the last newline of the
whitespace run. -/
def blankMatchLen (s : List Char) : Nat :=
  (wsRun s).length - trailingNonNL (wsRun s)

/-- Does `\n\s*\n\s*\n` match at the head of `s`? -/
def blankMatchAt (s : List Char) : Bool :=
  s.head? = some '\n' && decide (3 ≤ (wsRun s).count '\n')

theorem length_takeWhile_le_self {α : Type} (p : α → Bool) (l : List α) :
    (l.takeWhile p).length ≤ l.length := by
  induction l with
  | nil => simp
  | cons c cs ih =>
    by_cases hc : p c
    · rw [List.takeWhile_cons_of_pos hc]
      simpa using ih
    · rw [List.takeWhile_cons_of_neg hc]
      simp

theorem length_takeWhile_lt_of_exists_neg {α : Type} {p : α → Bool} {l : List α}
    (hx : ∃ x ∈ l, p x = false) : (l.takeWhile p).length < l.length := by
  induction l with
  | nil => simp at hx
  | cons c cs ih =>
    by_cases hc : p c
    · rw [List.takeWhile_cons_of_pos hc]
      obtain ⟨x, hmem, hpx⟩ := hx
      rcases List.mem_cons.mp hmem with rfl | hmem'
      · exact absurd hc (by simp [hpx])
      · simpa [Nat.succ_lt_succ_iff] using ih ⟨x, hmem', hpx⟩
    · rw [List.takeWhile_cons_of_neg hc]
      simp

theorem blankMatchLen_pos {s : List Char} (h : blankMatchAt s = true) :
    1 ≤ blankMatchLen s ∧ blankMatchLen s ≤ s.length := by
  have hcount : 3 ≤ (wsRun s).count '\n' := by
    have := (Bool.and_eq_true _ _).mp h
    exact of_decide_eq_true this.2
  have hmem : '\n' ∈ wsRun s := by
    by_contra hni
    rw [List.count_eq_zero_of_not_mem hni] at hcount
    omega
  have htrail : trailingNonNL (wsRun s) < (wsRun s).length := by
    have : (('\n' : Char) ∈ (wsRun s).reverse) := by simpa using hmem
    have hlt := length_takeWhile_lt_of_exists_neg
      (p := fun c => !(c = '\n')) (l := (wsRun s).reverse) ⟨'\n', this, by simp⟩
    simpa [trailingNonNL] using hlt
  have hrun : (wsRun s).length ≤ s.length := by
    simpa [wsRun] using length_takeWhile_le_self pyIsSpace s
  constructor
  · unfold blankMatchLen; omega
  · unfold blankMatchLen; omega

/-- `re.sub(r'\n\s*\n\s*\n', '\n\n', s)`. -/
def collapseBlank (s : List Char) : List Char :=
  match s with
  | [] => []
  | c :: cs =>
    if _hb : blankMatchAt (c :: cs) = true then
      '\n' :: '\n' :: collapseBlank ((c :: cs).drop (blankMatchLen (c :: cs)))
    else
      c :: collapseBlank cs
termination_by s.length
decreasing_by
  · have := blankMatchLen_pos _hb
    simp only [List.length_drop, List.length_cons]
    omega
  · simp only [List.length_cons]
    omega

/-- Python `str.strip()`: remove leading and trailing whitespace. -/
def pyStrip (s : List Char) : List Char :=
  ((s.dropWhile pyIsSpace).reverse.dropWhile pyIsSpace).reverse

def thinkOpenTag : List Char := "<think>".toList
def thinkCloseTag : List Char := "</think>".toList
def bracketOpenTag : List Char := "[THINK]".toList
def bracketCloseTag : List Char := "[/THINK]".toList
def thinkSelfCloseHead : List Char := "<think".toList
def thinkSelfCloseTail : List Char := "/>".toList
def bracketSelfCloseHead : List Char := "[THINK".toList
def bracketSelfCloseTail : List Char := "/]".toList
def beginBoxTag : List Char := "<|begin_of_box|>".toList
def endBoxTag : List Char := "<|end_of_box|>".toList

/-- The six tag-removal passes of `remove_thinking_tags`, before the
blank-line collapse and the strip. -/
def removeTagPasses (s : List Char) : List Char :=
  subAllCI endBoxTag
    (subAllCI beginBoxTag
      (removeSelfCloseCI bracketSelfCloseHead bracketSelfCloseTail
        (removeSelfCloseCI thinkSelfCloseHead thinkSelfCloseTail
          (removePairsCI bracketOpenTag bracketCloseTag
            (removePairsCI thinkOpenTag thinkCloseTag s)))))

def removeThinkingTagsList (s : List Char) : List Char :=
  pyStrip (collapseBlank (removeTagPasses s))

/-- `remove_thinking_tags`, parameterized by the `HIDE_THINKING` setting
(bot.py lines 155-171). -/
def remove_thinking_tags (hideThinking : Bool) (text : String) : String :=
  if hideThinking = false then text
  else String.mk (removeThinkingTagsList text.toList)

/-- The claim's notion of balanced input: open-tag count equals close-tag
count for both dialects, counts as in `is_inside_thinking_tags`
(bot.py lines 173-185). -/
def balancedTags (s : List Char) : Bool :=
  (countOccCI thinkOpenTag s == countOccCI thinkCloseTag s) &&
  (countOccCI bracketOpenTag s == countOccCI bracketCloseTag s)

/-! ### Web search wrapper (services/search.py lines 122-219)

The DDGS collaborator is an oracle mapping the `backend` argument to either
a transport error or a result list; all other call parameters are fixed
across the two calls `get_web_context` can make.  A raised exception is an
`Except.error`; the wrapper itself always returns a string. -/

structure SearchResult where
  title : Option String
  href : Option String
  body : Option String
deriving DecidableEq, Repr

def formatResult (i : Nat) (r : SearchResult) : String :=
  "[" ++ toString i ++ "] " ++ r.title.getD "No title" ++ "\n" ++
  "URL: " ++ r.href.getD "No URL" ++ "\n" ++
  "Summary: " ++ r.body.getD "No description" ++ "\n"

def formatResultsBlock (results : List SearchResult) : String :=
  let formatted := results.enum.map (fun p => formatResult (p.1 + 1) p.2)
  let context := String.intercalate "\n" formatted
  "\n--- WEB SEARCH RESULTS (" ++ toString results.length ++ " sources) ---\n"
    ++ context ++ "--------------------------\n"

/-- The `try`/`except` body of `get_web_context`: primary search, then (only
when the configured backend is `"auto"`) one fallback retry against the
fixed `"duckduckgo"` backend, then the empty string. -/
def searchBody (oracle : String → Except String (List SearchResult))
    (backend : String) : String :=
  match oracle backend with
  | .ok results => if results.isEmpty then "" else formatResultsBlock results
  | .error _ =>
    if backend = "auto" then
      match oracle "duckduckgo" with
      | .ok results => if results.isEmpty then "" else formatResultsBlock results
      | .error _ => ""
    else ""

structure WebContextResult where
  output : String
  userHistory : List Int
  guildHistory : List Int
deriving DecidableEq, Repr

/-- Python truthiness of the optional ids (`if user_id and guild_id:`). -/
def optTruthy : Option Int → Bool
  | some v => v ≠ 0
  | none => false

def get_web_context (oracle : String → Except String (List SearchResult))
    (backend : String) (user_id guild_id : Option Int)
    (cfgUser cfgGuild : RateLimitConfig)
    (userHistory guildHistory : List Int) (currentTime : Int) : WebContextResult :=
  if optTruthy user_id && optTruthy guild_id then
    let r := check_rate_limit cfgUser cfgGuild userHistory guildHistory currentTime
    if r.allowed = false then
      { output := "\n" ++ r.message ++ "\n",
        userHistory := r.userHistory, guildHistory := r.guildHistory }
    else
      { output := searchBody oracle backend,
        userHistory := r.userHistory, guildHistory := r.guildHistory }
  else
    { output := searchBody oracle backend,
      userHistory := userHistory, guildHistory := guildHistory }

/-! ### Chunking of the final answer (bot.py lines 609-613)

```
chunks = [final_response[i:i+2000] for i in range(0, len(final_response), 2000)]
```
-/

def chunkText (n : Nat) (l : List Char) : List (List Char) :=
  match n, l with
  | 0, _ => []
  | _ + 1, [] => []
  | m + 1, c :: cs =>
    (c :: cs).take (m + 1) :: chunkText (m + 1) ((c :: cs).drop (m + 1))
termination_by l.length
decreasing_by
  simp only [List.length_drop, List.length_cons]
  omega

/-- `MAX_RESPONSE_TIMES` from `config/constants.py` line 123 ("Maximum
number of response times to keep in memory").  `bot.py` never consults it. -/
def MAX_RESPONSE_TIMES : Nat := 100

/-! ## Properties of the role normalizer -/

/-- The role-difference relation between consecutive normalized messages. -/
def roleNe (a b : Msg) : Prop := a.role ≠ b.role

theorem getLast?_eq_none_imp_nil {l : List Msg} (h : l.getLast? = none) :
    l = [] := by
  cases l with
  | nil => rfl
  | cons a t =>
    exfalso
    have : (a :: t).getLast? = some ((a :: t).getLast (by simp)) :=
      List.getLast?_eq_getLast _ _
    rw [h] at this
    exact Option.noConfusion this

theorem normStep_chain {acc : List Msg} (m : Msg)
    (h : List.Chain' roleNe acc) : List.Chain' roleNe (normStep acc m) := by
  unfold normStep
  match hlast : acc.getLast? with
  | none => simp
  | some last =>
    dsimp only []
    by_cases heq : last.role = m.role
    · rw [if_pos heq]
      by_cases huser : m.role = Role.user
      · rw [if_pos huser]
        rw [List.chain'_append]
        refine ⟨h, ?_, ?_⟩
        · simp [understoodMsg, roleNe, huser]
        · intro x hx y hy
          rw [hlast] at hx
          simp at hx hy
          subst hx
          subst hy
          simp [roleNe, understoodMsg, heq, huser]
      · rw [if_neg huser]
        exact h
    · rw [if_neg heq]
      rw [List.chain'_append]
      refine ⟨h, List.chain'_singleton m, ?_⟩
      intro x hx y hy
      rw [hlast] at hx
      simp at hx hy
      subst hx
      subst hy
      exact heq

theorem foldl_normStep_chain (ms : List Msg) (acc : List Msg)
    (h : List.Chain' roleNe acc) : List.Chain' roleNe (ms.foldl normStep acc) := by
  induction ms generalizing acc with
  | nil => exact h
  | cons m ms ih => exact ih _ (normStep_chain m h)

theorem chain'_dropLast {l : List Msg} (h : List.Chain' roleNe l) :
    List.Chain' roleNe l.dropLast := by
  induction l with
  | nil => simp
  | cons a l ih =>
    cases l with
    | nil => simp
    | cons b l' =>
      have h' := List.chain'_cons.mp h
      have ihb := ih h'.2
      cases l' with
      | nil => simp
      | cons c l'' =>
        rw [List.dropLast_cons₂, List.dropLast_cons₂]
        rw [List.dropLast_cons₂] at ihb
        exact List.chain'_cons.mpr ⟨h'.1, ihb⟩

theorem buildApiMessages_chain (history : List Msg) :
    List.Chain' roleNe (buildApiMessages history) :=
  foldl_normStep_chain history [] (by simp)

theorem normalize_chain (history : List Msg) :
    List.Chain' roleNe (normalize history) := by
  unfold normalize
  have h := buildApiMessages_chain history
  match hlast : (buildApiMessages history).getLast? with
  | none => simpa using h
  | some last =>
    dsimp only []
    by_cases ha : last.role = Role.assistant
    · simpa [ha] using chain'_dropLast h
    · simpa [ha] using h

theorem normalize_getLast_user (history : List Msg) (m : Msg)
    (hm : (normalize history).getLast? = some m) : m.role = Role.user := by
  unfold normalize at hm
  have hchain := buildApiMessages_chain history
  match hlast : (buildApiMessages history).getLast? with
  | none =>
    rw [hlast] at hm
    dsimp only [] at hm
    have := getLast?_eq_none_imp_nil hlast
    rw [this] at hm
    simp at hm
  | some last =>
    rw [hlast] at hm
    dsimp only [] at hm
    by_cases ha : last.role = Role.assistant
    · rw [if_pos ha] at hm
      have hne : buildApiMessages history ≠ [] := by
        intro h0
        rw [h0] at hlast
        simp at hlast
      have hdecomp : (buildApiMessages history).dropLast ++ [(buildApiMessages history).getLast hne]
          = buildApiMessages history := List.dropLast_append_getLast hne
      have hlasteq : (buildApiMessages history).getLast hne = last := by
        have h2 := List.getLast?_eq_getLast (buildApiMessages history) hne
        rw [hlast] at h2
        injection h2 with h3
        exact h3.symm
      have hchain' : List.Chain' roleNe
          ((buildApiMessages history).dropLast ++ [last]) := by
        rw [hlasteq] at hdecomp
        rw [hdecomp]
        exact hchain
      have hrel := (List.chain'_append.mp hchain').2.2
      have hrel' := hrel m (by rw [hm]; simp) last (by simp)
      have hnotassist : m.role ≠ Role.assistant := by
        intro hcontra
        exact hrel' (by rw [hcontra, ha])
      cases hrole : m.role with
      | user => rfl
      | assistant => exact absurd hrole hnotassist
    · rw [if_neg ha] at hm
      have hsame : last = m := by
        rw [hlast] at hm
        injection hm
      subst hsame
      cases hrole : last.role with
      | user => rfl
      | assistant => exact absurd hrole ha

/-- C1: for every input history, the role-normalization pass produces a
sequence in which no two consecutive entries share a role, and whose last
entry, when the sequence is non-empty, has role `user`. -/
theorem normalize_alternation_and_ends_user (history : List Msg) :
    List.Chain' roleNe (normalize history) ∧
    (∀ m : Msg, (normalize history).getLast? = some m → m.role = Role.user) :=
  ⟨normalize_chain history, normalize_getLast_user history⟩

/-- Witness for C1 at the concrete history `[user:"hi", user:"there"]`. -/
theorem normalize_alternation_and_ends_user_witness :
    (⟨Role.user, "there"⟩ : Msg).role = Role.user :=
  (normalize_alternation_and_ends_user
    [⟨Role.user, "hi"⟩, ⟨Role.user, "there"⟩]).2 ⟨Role.user, "there"⟩ (by decide)

def isUserMsg (m : Msg) : Bool := m.role == Role.user

theorem normStep_filter_user (acc : List Msg) (m : Msg) :
    (normStep acc m).filter isUserMsg = acc.filter isUserMsg ++ [m].filter isUserMsg := by
  unfold normStep
  match hlast : acc.getLast? with
  | none =>
    have hnil : acc = [] := getLast?_eq_none_imp_nil hlast
    subst hnil
    simp
  | some last =>
    dsimp only []
    by_cases heq : last.role = m.role
    · rw [if_pos heq]
      by_cases huser : m.role = Role.user
      · rw [if_pos huser]
        rw [List.filter_append]
        simp [isUserMsg, understoodMsg, huser]
      · rw [if_neg huser]
        have hassist : m.role = Role.assistant := by
          cases hrole : m.role with
          | user => exact absurd hrole huser
          | assistant => rfl
        simp [isUserMsg, hassist]
    · rw [if_neg heq]
      rw [List.filter_append]

theorem foldl_normStep_filter_user (ms : List Msg) (acc : List Msg) :
    (ms.foldl normStep acc).filter isUserMsg =
      acc.filter isUserMsg ++ ms.filter isUserMsg := by
  induction ms generalizing acc with
  | nil => simp
  | cons m ms ih =>
    rw [List.foldl_cons, ih, normStep_filter_user]
    cases hm : isUserMsg m <;> simp [List.filter_cons, hm]

theorem normalize_filter_user (history : List Msg) :
    (normalize history).filter isUserMsg = history.filter isUserMsg := by
  unfold normalize
  have hbuild := foldl_normStep_filter_user history []
  match hlast : (buildApiMessages history).getLast? with
  | none =>
    dsimp only []
    simpa [buildApiMessages] using hbuild
  | some last =>
    dsimp only []
    by_cases ha : last.role = Role.assistant
    · rw [if_pos ha]
      have hne : buildApiMessages history ≠ [] := by
        intro h0
        rw [h0] at hlast
        simp at hlast
      have hlasteq : (buildApiMessages history).getLast hne = last := by
        have h2 := List.getLast?_eq_getLast (buildApiMessages history) hne
        rw [hlast] at h2
        injection h2 with h3
        exact h3.symm
      have hdecomp : (buildApiMessages history).dropLast ++ [last]
          = buildApiMessages history := by
        rw [← hlasteq]
        exact List.dropLast_append_getLast hne
      have hfa : (buildApiMessages history).filter isUserMsg =
          (buildApiMessages history).dropLast.filter isUserMsg := by
        conv_lhs => rw [← hdecomp]
        rw [List.filter_append]
        simp [isUserMsg, ha]
      rw [← hfa]
      simpa [buildApiMessages] using hbuild
    · rw [if_neg ha]
      simpa [buildApiMessages] using hbuild

theorem normStep_mem (acc : List Msg) (m x : Msg)
    (hx : x ∈ normStep acc m) : x ∈ acc ∨ x = m ∨ x = understoodMsg := by
  unfold normStep at hx
  match hlast : acc.getLast? with
  | none =>
    rw [hlast] at hx
    dsimp only [] at hx
    simp at hx
    exact Or.inr (Or.inl hx)
  | some last =>
    rw [hlast] at hx
    dsimp only [] at hx
    by_cases heq : last.role = m.role
    · rw [if_pos heq] at hx
      by_cases huser : m.role = Role.user
      · rw [if_pos huser] at hx
        rcases List.mem_append.mp hx with h1 | h2
        · exact Or.inl h1
        · simp at h2
          rcases h2 with h2 | h2
          · exact Or.inr (Or.inr h2)
          · exact Or.inr (Or.inl h2)
      · rw [if_neg huser] at hx
        exact Or.inl hx
    · rw [if_neg heq] at hx
      rcases List.mem_append.mp hx with h1 | h2
      · exact Or.inl h1
      · simp at h2
        exact Or.inr (Or.inl h2)

theorem foldl_normStep_mem (ms : List Msg) (acc : List Msg) (x : Msg)
    (hx : x ∈ ms.foldl normStep acc) : x ∈ acc ∨ x ∈ ms ∨ x = understoodMsg := by
  induction ms generalizing acc with
  | nil => exact Or.inl hx
  | cons m ms ih =>
    rw [List.foldl_cons] at hx
    rcases ih _ hx with h1 | h2 | h3
    · rcases normStep_mem acc m x h1 with ha | hb | hc
      · exact Or.inl ha
      · exact Or.inr (Or.inl (by simp [hb]))
      · exact Or.inr (Or.inr hc)
    · exact Or.inr (Or.inl (List.mem_cons_of_mem m h2))
    · exact Or.inr (Or.inr h3)

theorem normalize_mem (history : List Msg) (x : Msg)
    (hx : x ∈ normalize history) : x ∈ history ∨ x = understoodMsg := by
  have hx' : x ∈ buildApiMessages history := by
    unfold normalize at hx
    match hlast : (buildApiMessages history).getLast? with
    | none =>
      rw [hlast] at hx
      exact hx
    | some last =>
      rw [hlast] at hx
      dsimp only [] at hx
      by_cases ha : last.role = Role.assistant
      · rw [if_pos ha] at hx
        exact (List.dropLast_sublist _).mem hx
      · rw [if_neg ha] at hx
        exact hx
  rcases foldl_normStep_mem history [] x hx' with h1 | h2 | h3
  · simp at h1
  · exact Or.inl h2
  · exact Or.inr h3

/-- The loop body on a duplicated `user` role: the synthetic assistant turn
`"Understood."` is inserted before the current turn (bot.py lines 318-320,
324). -/
theorem normStep_user_duplicate (acc : List Msg) (m last : Msg)
    (hlast : acc.getLast? = some last) (hl : last.role = Role.user)
    (hm : m.role = Role.user) :
    normStep acc m = acc ++ [understoodMsg, m] := by
  unfold normStep
  rw [hlast]
  dsimp only []
  rw [if_pos (hl.trans hm.symm), if_pos hm]

/-- The loop body on a duplicated `assistant` role: the current turn is
dropped (`continue`, bot.py lines 318, 321-322). -/
theorem normStep_assistant_duplicate (acc : List Msg) (m last : Msg)
    (hlast : acc.getLast? = some last) (hl : last.role = Role.assistant)
    (hm : m.role = Role.assistant) :
    normStep acc m = acc := by
  unfold normStep
  rw [hlast]
  dsimp only []
  rw [if_pos (hl.trans hm.symm), if_neg (by simp [hm])]

/-- C5: when a turn repeats the previous role: a duplicate `user` turn gets
the synthetic `assistant` turn `"Understood."` inserted before it (and no
real user turn is discarded: the user-turn subsequence is preserved, and
every normalized entry is either an input entry or the synthetic one); a
duplicate `assistant` turn is dropped (stated as the loop-body equation and
evaluated on `[user:"hi", assistant:"x", assistant:"y"]`, whose pass output
keeps only the first assistant turn); and `[user:"hi", user:"there"]`
normalizes to `[user:"hi", assistant:"Understood.", user:"there"]`. -/
theorem normalize_duplicate_handling :
    (∀ (acc : List Msg) (m last : Msg), acc.getLast? = some last →
      last.role = Role.user → m.role = Role.user →
      normStep acc m = acc ++ [understoodMsg, m]) ∧
    (∀ (acc : List Msg) (m last : Msg), acc.getLast? = some last →
      last.role = Role.assistant → m.role = Role.assistant →
      normStep acc m = acc) ∧
    buildApiMessages
        [⟨Role.user, "hi"⟩, ⟨Role.assistant, "x"⟩, ⟨Role.assistant, "y"⟩] =
      [⟨Role.user, "hi"⟩, ⟨Role.assistant, "x"⟩] ∧
    normalize [⟨Role.user, "hi"⟩, ⟨Role.user, "there"⟩] =
      [⟨Role.user, "hi"⟩, ⟨Role.assistant, "Understood."⟩, ⟨Role.user, "there"⟩] ∧
    (∀ history : List Msg,
      (normalize history).filter isUserMsg = history.filter isUserMsg) ∧
    (∀ history : List Msg, ∀ x ∈ normalize history, x ∈ history ∨ x = understoodMsg) :=
  ⟨normStep_user_duplicate, normStep_assistant_duplicate, by decide, by decide,
    normalize_filter_user, normalize_mem⟩

/-- Witness for C5: the assistant-duplicate clause at a concrete input. -/
theorem normalize_duplicate_handling_witness :
    normStep [⟨Role.assistant, "x"⟩] ⟨Role.assistant, "y"⟩ =
      [⟨Role.assistant, "x"⟩] :=
  normalize_duplicate_handling.2.1 [⟨Role.assistant, "x"⟩] ⟨Role.assistant, "y"⟩
    ⟨Role.assistant, "x"⟩ (by decide) (by decide) (by decide)

/-! ## Properties of the per-exchange history evolution -/

theorem trimHistory_sublist (maxHistory : Nat) (l : List Msg) :
    (trimHistory maxHistory l).Sublist l := by
  unfold trimHistory pySliceLast
  split_ifs with h1 h2
  · exact List.Sublist.refl l
  · exact List.drop_sublist _ l
  · exact List.Sublist.refl l

theorem trimHistory_length_le (maxHistory : Nat) (l : List Msg) (hN : 1 ≤ maxHistory) :
    (trimHistory maxHistory l).length ≤ maxHistory * 2 := by
  unfold trimHistory pySliceLast
  split_ifs with h1 h2
  · omega
  · simp only [List.length_drop]
    omega
  · omega

theorem queryStep_history_length_le (maxHistory contextMessages : Nat)
    (s : ConvState) (e : ExchangeInput) (hN : 1 ≤ maxHistory) :
    ((queryStep maxHistory contextMessages s e).1).history.length ≤ maxHistory * 2 + 1 := by
  obtain ⟨ctx, msg, outcome⟩ := e
  have hb := trimHistory_length_le maxHistory
    (preHistory contextMessages s ctx ++ [⟨Role.user, msg⟩]) hN
  cases outcome with
  | success chunks elapsed =>
    dsimp only [queryStep]
    simp only [List.length_append, List.length_cons, List.length_nil]
    omega
  | httpError st =>
    dsimp only [queryStep]
    simp only [List.length_dropLast]
    omega
  | clientError d =>
    dsimp only [queryStep]
    simp only [List.length_dropLast]
    omega
  | unexpected d =>
    dsimp only [queryStep]
    simp only [List.length_dropLast]
    omega

theorem foldl_queryStep_history_le (maxHistory contextMessages : Nat)
    (es : List ExchangeInput) (s : ConvState) (hN : 1 ≤ maxHistory)
    (hs : s.history.length ≤ maxHistory * 2 + 1) :
    (es.foldl (fun s e => (queryStep maxHistory contextMessages s e).1) s).history.length
      ≤ maxHistory * 2 + 1 := by
  induction es generalizing s with
  | nil => exact hs
  | cons e es ih =>
    rw [List.foldl_cons]
    exact ih _ (queryStep_history_length_le _ _ _ _ hN)

/-- C3 counterexample: with maxHistoryTurns = 1, two successful exchanges
leave 3 entries in the stored history, exceeding 2 × maxHistoryTurns = 2:
the assistant turn is appended (bot.py line 378) after the trim
(line 307) already ran, and is never trimmed itself. -/
theorem history_bound_counterexample :
    (runExchanges 1 0
      [⟨[], "m1", .success ["r1"] 0⟩, ⟨[], "m2", .success ["r2"] 0⟩]).history.length = 3 ∧
    ¬((runExchanges 1 0
      [⟨[], "m1", .success ["r1"] 0⟩, ⟨[], "m2", .success ["r2"] 0⟩]).history.length ≤ 1 * 2) := by
  decide

/-- C3 (amended): for maxHistoryTurns ≥ 1, after any number of exchanges the
stored history holds at most 2 × maxHistoryTurns + 1 entries (the bound
2 × maxHistoryTurns is re-established by the trim at the start of the next
exchange, before the inference call). -/
theorem runExchanges_history_bounded (maxHistory contextMessages : Nat)
    (es : List ExchangeInput) (hN : 1 ≤ maxHistory) :
    (runExchanges maxHistory contextMessages es).history.length ≤ maxHistory * 2 + 1 :=
  foldl_queryStep_history_le maxHistory contextMessages es initConvState hN
    (by simp [initConvState])

/-- Witness for C3 (amended) at maxHistoryTurns = 1, two successful exchanges. -/
theorem runExchanges_history_bounded_witness :
    (runExchanges 1 0
      [⟨[], "m1", .success ["r1"] 0⟩, ⟨[], "m2", .success ["r2"] 0⟩]).history.length
      ≤ 1 * 2 + 1 :=
  runExchanges_history_bounded 1 0
    [⟨[], "m1", .success ["r1"] 0⟩, ⟨[], "m2", .success ["r2"] 0⟩] (by decide)

theorem queryStep_failure_core (maxHistory contextMessages : Nat) (s : ConvState)
    (ctx : List Msg) (msg : String) :
    (∀ m ∈ (trimHistory maxHistory
        (preHistory contextMessages s ctx ++ [⟨Role.user, msg⟩])).dropLast,
       m ∈ s.history ∨ m ∈ ctx ∨ m = ⟨Role.user, msg⟩) ∧
    (s.history ≠ [] → s.history.length + 1 ≤ maxHistory * 2 →
       (trimHistory maxHistory
         (preHistory contextMessages s ctx ++ [⟨Role.user, msg⟩])).dropLast = s.history) ∧
    (s.history ≠ [] → 1 ≤ maxHistory → maxHistory * 2 ≤ s.history.length →
       ((trimHistory maxHistory
         (preHistory contextMessages s ctx ++ [⟨Role.user, msg⟩])).dropLast).length
         = maxHistory * 2 - 1) := by
  refine ⟨?_, ?_, ?_⟩
  · intro m hm
    have h1 : m ∈ preHistory contextMessages s ctx ++ [⟨Role.user, msg⟩] :=
      (trimHistory_sublist _ _).mem ((List.dropLast_sublist _).mem hm)
    rcases List.mem_append.mp h1 with h2 | h3
    · unfold preHistory at h2
      by_cases hc : preloadCond contextMessages s
      · rw [if_pos hc] at h2
        rcases List.mem_append.mp h2 with h4 | h5
        · exact Or.inl h4
        · exact Or.inr (Or.inl h5)
      · rw [if_neg hc] at h2
        exact Or.inl h2
    · simp at h3
      exact Or.inr (Or.inr h3)
  · intro hne hlen
    have hpre : preHistory contextMessages s ctx = s.history := by
      unfold preHistory preloadCond
      rw [if_neg]
      intro hc
      exact hne hc.1
    rw [hpre]
    unfold trimHistory
    rw [if_neg (by simp only [List.length_append, List.length_cons, List.length_nil]; omega)]
    simp
  · intro hne hN hlen
    have hpre : preHistory contextMessages s ctx = s.history := by
      unfold preHistory preloadCond
      rw [if_neg]
      intro hc
      exact hne hc.1
    rw [hpre]
    unfold trimHistory pySliceLast
    rw [if_pos (by simp only [List.length_append, List.length_cons, List.length_nil]; omega)]
    rw [if_neg (by omega)]
    simp only [List.length_dropLast, List.length_drop, List.length_append,
      List.length_cons, List.length_nil]
    omega

/-- C4 (amended): on any stream failure (non-success HTTP status, transport
error or unexpected exception) exactly one synthetic error delta naming the
failure category is yielded and the stream ends; the session statistics are
unchanged; no new turn is persisted (every surviving entry is a pre-existing
one, a preloaded context turn, or the pending user turn); and when the
exchange triggered no preload and no trim (history non-empty and pre-append
length + 1 ≤ 2 × maxHistoryTurns) the history is restored exactly to its
pre-append state.  When the append triggered the trim, the rolled-back
history has 2 × maxHistoryTurns − 1 entries instead of the pre-append
length: the pop cannot undo the trim. -/
theorem queryStep_failure_behavior (maxHistory contextMessages : Nat)
    (s : ConvState) (e : ExchangeInput) (hfail : e.outcome.isFailure = true) :
    (queryStep maxHistory contextMessages s e).2 = [errorText e.outcome] ∧
    ((queryStep maxHistory contextMessages s e).1).stats = s.stats ∧
    (∀ m ∈ ((queryStep maxHistory contextMessages s e).1).history,
      m ∈ s.history ∨ m ∈ e.ctx ∨ m = ⟨Role.user, e.messageText⟩) ∧
    (s.history ≠ [] → s.history.length + 1 ≤ maxHistory * 2 →
      ((queryStep maxHistory contextMessages s e).1).history = s.history) ∧
    (s.history ≠ [] → 1 ≤ maxHistory → maxHistory * 2 ≤ s.history.length →
      ((queryStep maxHistory contextMessages s e).1).history.length
        = maxHistory * 2 - 1) := by
  obtain ⟨ctx, msg, outcome⟩ := e
  have core := queryStep_failure_core maxHistory contextMessages s ctx msg
  cases outcome with
  | success chunks elapsed => simp [StreamOutcome.isFailure] at hfail
  | httpError st => exact ⟨rfl, rfl, core.1, core.2.1, core.2.2⟩
  | clientError d => exact ⟨rfl, rfl, core.1, core.2.1, core.2.2⟩
  | unexpected d => exact ⟨rfl, rfl, core.1, core.2.1, core.2.2⟩

/-- Witness for C4 (amended) at a concrete failed exchange. -/
theorem queryStep_failure_behavior_witness :
    (queryStep 1 0 initConvState ⟨[], "m", .httpError 500⟩).2 =
      [errorText (.httpError 500)] :=
  (queryStep_failure_behavior 1 0 initConvState ⟨[], "m", .httpError 500⟩ (by decide)).1

/-- C4 counterexample: the rollback does not always restore the history to
its pre-append length.  With maxHistoryTurns = 1, after one successful
exchange the history has 2 entries; a failing second exchange appends the
user turn (3 entries), trims to 2, then pops, leaving 1 entry ≠ 2. -/
theorem failure_rollback_counterexample :
    ¬(((queryStep 1 0
        ((queryStep 1 0 initConvState ⟨[], "m1", .success ["r1"] 0⟩).1)
        ⟨[], "m2", .httpError 500⟩).1).history.length =
      ((queryStep 1 0 initConvState ⟨[], "m1", .success ["r1"] 0⟩).1).history.length) := by
  decide

/-! ## Properties of the session statistics -/

theorem queryStep_responseTimes_length (maxHistory contextMessages : Nat)
    (s : ConvState) (e : ExchangeInput) :
    ((queryStep maxHistory contextMessages s e).1).stats.responseTimes.length =
      s.stats.responseTimes.length + (if e.outcome.isFailure then 0 else 1) := by
  obtain ⟨ctx, msg, outcome⟩ := e
  cases outcome <;> simp [queryStep, updateStats, StreamOutcome.isFailure]

theorem foldl_queryStep_responseTimes (maxHistory contextMessages : Nat)
    (es : List ExchangeInput) (s : ConvState) :
    ((es.foldl (fun s e => (queryStep maxHistory contextMessages s e).1) s).stats.responseTimes).length =
      s.stats.responseTimes.length + es.countP (fun e => !e.outcome.isFailure) := by
  induction es generalizing s with
  | nil => simp
  | cons e es ih =>
    rw [List.foldl_cons, ih, List.countP_cons, queryStep_responseTimes_length]
    cases hf : e.outcome.isFailure
    · simp [hf]
      omega
    · simp [hf]

theorem countP_replicate_true {α : Type} (p : α → Bool) (a : α) (hp : p a = true) :
    ∀ n : Nat, List.countP p (List.replicate n a) = n := by
  intro n
  induction n with
  | zero => simp
  | succ k ih => simp [List.replicate_succ, List.countP_cons, hp, ih]

/-- C7: `response_times` is unbounded.  `stats['response_times'].append(...)`
(bot.py line 387) never trims, and `MAX_RESPONSE_TIMES = 100`
(config/constants.py line 123, "Maximum number of response times to keep in
memory") is never consulted: after 101 successful exchanges the list holds
101 entries, exceeding the documented cap, with no eviction. -/
theorem response_times_exceed_cap :
    (runExchanges 1 0
      (List.replicate 101 ⟨[], "m", .success ["r"] 0⟩)).stats.responseTimes.length = 101 ∧
    MAX_RESPONSE_TIMES <
      (runExchanges 1 0
        (List.replicate 101 ⟨[], "m", .success ["r"] 0⟩)).stats.responseTimes.length := by
  have h := foldl_queryStep_responseTimes 1 0
    (List.replicate 101 ⟨[], "m", .success ["r"] 0⟩) initConvState
  have h2 : List.countP (fun e => !e.outcome.isFailure)
      (List.replicate 101 (⟨[], "m", .success ["r"] 0⟩ : ExchangeInput)) = 101 :=
    countP_replicate_true _ _ rfl 101
  rw [h2] at h
  unfold runExchanges
  rw [h]
  simp [initConvState, initStats, MAX_RESPONSE_TIMES]

/-! ## Properties of the search rate limiter -/

/-- C2 counterexample: `check_rate_limit` never checks the guild per-hour
count against `RATE_LIMITS['per_guild'].calls_per_hour`.  With a guild
per-hour ceiling of 1 and one guild search 2 minutes old (inside the 1-hour
window, outside the 1-minute window), the guild hour count meets the
ceiling, yet the request is allowed. -/
theorem check_rate_limit_counterexample :
    (check_rate_limit ⟨100, 100, 30⟩ ⟨100, 1, 60⟩ [] [9880] 10000).allowed = true ∧
    (⟨100, 1, 60⟩ : RateLimitConfig).calls_per_hour ≤
      (pruneHour [9880] 10000).length := by
  decide

/-- C2 (amended): a request is rejected iff the user's per-minute count,
the user's per-hour count, or the guild's per-minute count meets/exceeds its
ceiling (counts taken over the lazily pruned windows); the guild's per-hour
count is never checked.  When allowed, the current timestamp is recorded
into both pruned windows. -/
theorem check_rate_limit_characterization (cfgUser cfgGuild : RateLimitConfig)
    (userHistory guildHistory : List Int) (currentTime : Int) :
    ((check_rate_limit cfgUser cfgGuild userHistory guildHistory currentTime).allowed = false ↔
      (cfgUser.calls_per_minute ≤
          (recentMinute (pruneHour userHistory currentTime) currentTime).length ∨
       cfgUser.calls_per_hour ≤ (pruneHour userHistory currentTime).length ∨
       cfgGuild.calls_per_minute ≤
          (recentMinute (pruneHour guildHistory currentTime) currentTime).length)) ∧
    ((check_rate_limit cfgUser cfgGuild userHistory guildHistory currentTime).allowed = true →
      (check_rate_limit cfgUser cfgGuild userHistory guildHistory currentTime).userHistory =
        pruneHour userHistory currentTime ++ [currentTime] ∧
      (check_rate_limit cfgUser cfgGuild userHistory guildHistory currentTime).guildHistory =
        pruneHour guildHistory currentTime ++ [currentTime]) := by
  unfold check_rate_limit
  split_ifs with h1 h2 h3
  · exact ⟨⟨fun _ => Or.inl h1, fun _ => rfl⟩, fun hc => by simp at hc⟩
  · exact ⟨⟨fun _ => Or.inr (Or.inl h2), fun _ => rfl⟩, fun hc => by simp at hc⟩
  · exact ⟨⟨fun _ => Or.inr (Or.inr h3), fun _ => rfl⟩, fun hc => by simp at hc⟩
  · refine ⟨⟨fun hc => by simp at hc, fun hor => ?_⟩, fun _ => ⟨rfl, rfl⟩⟩
    rcases hor with h | h | h
    · exact absurd h h1
    · exact absurd h h2
    · exact absurd h h3

/-- Witness for C2 (amended): with empty windows and ceilings 1 the request
is allowed and both windows record the timestamp. -/
theorem check_rate_limit_characterization_witness :
    (check_rate_limit ⟨1, 1, 1⟩ ⟨1, 1, 1⟩ [] [] 0).userHistory =
        ([] : List Int).filter (fun ts => (0 : Int) - ts < 3600) ++ [0] ∧
    (check_rate_limit ⟨1, 1, 1⟩ ⟨1, 1, 1⟩ [] [] 0).guildHistory =
        ([] : List Int).filter (fun ts => (0 : Int) - ts < 3600) ++ [0] :=
  (check_rate_limit_characterization ⟨1, 1, 1⟩ ⟨1, 1, 1⟩ [] [] 0).2 (by decide)

/-! ## Properties of the search wrapper -/

/-- C8: `get_web_context` never raises (it is a total function returning a
string in the model: every exception path of the source returns a value);
when the primary search fails it retries exactly once, against the fixed
`"duckduckgo"` backend, and only when the configured backend is `"auto"`
(for any other backend the result does not depend on any other oracle entry
and is the empty string); when the fallback also fails or returns no
results the empty string is returned, and a non-empty fallback result is
formatted like a primary result. -/
theorem get_web_context_fallback (backend : String) (guild_id : Option Int)
    (cfgUser cfgGuild : RateLimitConfig) (uh gh : List Int) (now : Int) :
    (∀ o o' : String → Except String (List SearchResult), o backend = o' backend →
      backend ≠ "auto" →
      (get_web_context o backend none guild_id cfgUser cfgGuild uh gh now).output =
        (get_web_context o' backend none guild_id cfgUser cfgGuild uh gh now).output) ∧
    (∀ (o : String → Except String (List SearchResult)) (e : String),
      o backend = .error e → backend ≠ "auto" →
      (get_web_context o backend none guild_id cfgUser cfgGuild uh gh now).output = "") ∧
    (∀ (o : String → Except String (List SearchResult)) (e e2 : String),
      o "auto" = .error e → o "duckduckgo" = .error e2 →
      (get_web_context o "auto" none guild_id cfgUser cfgGuild uh gh now).output = "") ∧
    (∀ (o : String → Except String (List SearchResult)) (e : String),
      o "auto" = .error e → o "duckduckgo" = .ok [] →
      (get_web_context o "auto" none guild_id cfgUser cfgGuild uh gh now).output = "") ∧
    (∀ (o : String → Except String (List SearchResult)) (e : String)
        (rs : List SearchResult),
      o "auto" = .error e → o "duckduckgo" = .ok rs → rs ≠ [] →
      (get_web_context o "auto" none guild_id cfgUser cfgGuild uh gh now).output =
        formatResultsBlock rs) := by
  refine ⟨?_, ?_, ?_, ?_, ?_⟩
  · intro o o' hagree hne
    simp only [get_web_context, optTruthy, Bool.false_and, if_neg Bool.false_ne_true]
    unfold searchBody
    rw [hagree]
    cases o' backend with
    | ok results => rfl
    | error e => rw [if_neg hne, if_neg hne]
  · intro o e hoe hne
    simp only [get_web_context, optTruthy, Bool.false_and, if_neg Bool.false_ne_true]
    unfold searchBody
    rw [hoe, if_neg hne]
  · intro o e e2 h1 h2
    simp only [get_web_context, optTruthy, Bool.false_and, if_neg Bool.false_ne_true]
    unfold searchBody
    rw [h1, if_pos rfl, h2]
  · intro o e h1 h2
    simp only [get_web_context, optTruthy, Bool.false_and, if_neg Bool.false_ne_true]
    unfold searchBody
    rw [h1, if_pos rfl, h2]
    simp
  · intro o e rs h1 h2 hne
    simp only [get_web_context, optTruthy, Bool.false_and, if_neg Bool.false_ne_true]
    unfold searchBody
    rw [h1, if_pos rfl, h2]
    dsimp only []
    rw [if_neg (by simpa [List.isEmpty_iff] using hne)]

/-- Witness for C8 at a concrete oracle whose primary `"auto"` call fails
and whose `"duckduckgo"` fallback returns one result. -/
theorem get_web_context_fallback_witness :
    (get_web_context
      (fun b => if b = "duckduckgo"
        then .ok [⟨some "t", some "u", some "b"⟩] else .error "boom")
      "auto" none none ⟨0, 0, 0⟩ ⟨0, 0, 0⟩ [] [] 0).output =
      formatResultsBlock [⟨some "t", some "u", some "b"⟩] :=
  (get_web_context_fallback "auto" none ⟨0, 0, 0⟩ ⟨0, 0, 0⟩ [] [] 0).2.2.2.2
    (fun b => if b = "duckduckgo"
      then .ok [⟨some "t", some "u", some "b"⟩] else .error "boom")
    "boom" [⟨some "t", some "u", some "b"⟩] (by rfl) (by rfl) (by decide)

/-! ## Properties of the final-answer chunking -/

theorem chunkText_length_le (n : Nat) (l : List Char) :
    ∀ c ∈ chunkText n l, c.length ≤ n := by
  induction n, l using chunkText.induct with
  | case1 l =>
    intro c hc
    simp [chunkText] at hc
  | case2 m =>
    intro c hc
    simp [chunkText] at hc
  | case3 m a as0 ih =>
    intro c hc
    rw [chunkText] at hc
    rcases List.mem_cons.mp hc with h1 | h2
    · rw [h1]
      exact List.length_take_le (m + 1) (a :: as0)
    · exact ih c h2

theorem chunkText_flatten (n : Nat) (hn : 1 ≤ n) (l : List Char) :
    (chunkText n l).flatten = l := by
  induction n, l using chunkText.induct with
  | case1 l => omega
  | case2 m => simp [chunkText]
  | case3 m a as0 ih =>
    rw [chunkText, List.flatten_cons, ih (by omega)]
    exact List.take_append_drop (m + 1) (a :: as0)

theorem chunkText_count (n : Nat) (hn : 1 ≤ n) (l : List Char) :
    (chunkText n l).length = (l.length + n - 1) / n := by
  induction n, l using chunkText.induct with
  | case1 l => omega
  | case2 m =>
    have h0 : (([] : List Char).length + (m + 1) - 1) / (m + 1) = 0 := by
      apply Nat.div_eq_of_lt
      simp
    rw [chunkText, h0]
    rfl
  | case3 m a as0 ih =>
    have hd : (List.drop (m + 1) (a :: as0)).length = as0.length - m := by
      rw [List.length_drop, List.length_cons]
      omega
    have key : (as0.length - m + (m + 1) - 1) / (m + 1) + 1 =
        (as0.length + 1 + (m + 1) - 1) / (m + 1) := by
      rcases le_or_lt (m + 1) (as0.length + 1) with hge | hlt
      · have h1 : as0.length - m + (m + 1) - 1 = as0.length := by omega
        have h2 : as0.length + 1 + (m + 1) - 1 = as0.length + (m + 1) := by omega
        rw [h1, h2, Nat.add_div_right _ (Nat.succ_pos m)]
      · have h1 : as0.length - m + (m + 1) - 1 = m := by omega
        have h2 : as0.length + 1 + (m + 1) - 1 = as0.length + m + 1 := by omega
        have d1 : m / (m + 1) = 0 := Nat.div_eq_of_lt (by omega)
        have d2 : (as0.length + m + 1) / (m + 1) = 1 :=
          Nat.div_eq_of_lt_le (by omega) (by omega)
        rw [h1, h2, d1, d2]
    rw [chunkText, List.length_cons, ih (by omega), hd, List.length_cons]
    exact key

/-- C9: Discord chunking of an over-long final answer: every chunk has at
most 2000 characters, the chunks concatenate back to the original text
exactly (no character lost or duplicated), and a 2050-character answer
yields exactly two chunks. -/
theorem final_response_chunking :
    (∀ l : List Char, ∀ c ∈ chunkText 2000 l, c.length ≤ 2000) ∧
    (∀ l : List Char, (chunkText 2000 l).flatten = l) ∧
    (chunkText 2000 (List.replicate 2050 'a')).length = 2 := by
  refine ⟨fun l => chunkText_length_le 2000 l, fun l => chunkText_flatten 2000 (by omega) l, ?_⟩
  rw [chunkText_count 2000 (by omega)]
  rw [List.length_replicate]

/-- Witness for C9: the single chunk of a one-character answer is within the
limit. -/
theorem final_response_chunking_witness :
    (['a'] : List Char).length ≤ 2000 :=
  final_response_chunking.1 ['a'] ['a'] (by simp [chunkText])

/-! ## Idempotence analysis of the thinking-tag filter

The blank-line collapse leaves no further `\n\s*\n\s*\n` match in its
output, and the strip preserves that; hence a second filter application is
the identity whenever the six tag-removal passes find nothing to remove in
the once-filtered text.  Tag removal, however, can splice the fragments
around a removed span into a **new** tag occurrence, which the single
left-to-right pass never revisits — that breaks idempotence on balanced
inputs (see the counterexamples). -/

/-- No suffix of `s` starts a `\n\s*\n\s*\n` match. -/
def noTriple : List Char → Bool
  | [] => true
  | c :: cs => !blankMatchAt (c :: cs) && noTriple cs

theorem noTriple_cons (c : Char) (cs : List Char) :
    noTriple (c :: cs) = (!blankMatchAt (c :: cs) && noTriple cs) := rfl

theorem mem_takeWhile_pred {p : Char → Bool} {l : List Char} {x : Char}
    (hx : x ∈ l.takeWhile p) : p x = true := by
  induction l with
  | nil => simp at hx
  | cons c cs ih =>
    by_cases hc : p c
    · rw [List.takeWhile_cons_of_pos hc] at hx
      rcases List.mem_cons.mp hx with rfl | h2
      · exact hc
      · exact ih h2
    · rw [List.takeWhile_cons_of_neg hc] at hx
      simp at hx

theorem mem_of_mem_takeWhile {p : Char → Bool} {l : List Char} {x : Char}
    (hx : x ∈ l.takeWhile p) : x ∈ l := by
  induction l with
  | nil => simp at hx
  | cons c cs ih =>
    by_cases hc : p c
    · rw [List.takeWhile_cons_of_pos hc] at hx
      rcases List.mem_cons.mp hx with rfl | h2
      · simp
      · exact List.mem_cons_of_mem c (ih h2)
    · rw [List.takeWhile_cons_of_neg hc] at hx
      simp at hx

theorem takeWhile_append_all {p : Char → Bool} {u : List Char} (v : List Char)
    (hu : ∀ c ∈ u, p c = true) : (u ++ v).takeWhile p = u ++ v.takeWhile p := by
  induction u with
  | nil => simp
  | cons c u' ih =>
    have hc : p c = true := hu c (by simp)
    rw [List.cons_append, List.takeWhile_cons_of_pos hc,
      ih (fun d hd => hu d (by simp [hd]))]
    rfl

theorem takeWhile_dropWhile_nil (p : Char → Bool) (l : List Char) :
    (l.dropWhile p).takeWhile p = [] := by
  induction l with
  | nil => simp
  | cons c cs ih =>
    by_cases hc : p c
    · rw [List.dropWhile_cons_of_pos hc]
      exact ih
    · rw [List.dropWhile_cons_of_neg hc, List.takeWhile_cons_of_neg hc]

theorem dropWhile_idem (p : Char → Bool) (l : List Char) :
    (l.dropWhile p).dropWhile p = l.dropWhile p := by
  induction l with
  | nil => simp
  | cons c cs ih =>
    by_cases hc : p c
    · rw [List.dropWhile_cons_of_pos hc]
      exact ih
    · rw [List.dropWhile_cons_of_neg hc, List.dropWhile_cons_of_neg hc]

theorem dropWhile_head_neg {p : Char → Bool} {l : List Char} {c : Char} {w : List Char}
    (h : l.dropWhile p = c :: w) : p c = false := by
  induction l with
  | nil => simp at h
  | cons a as0 ih =>
    by_cases ha : p a
    · rw [List.dropWhile_cons_of_pos ha] at h
      exact ih h
    · rw [List.dropWhile_cons_of_neg ha] at h
      injection h with h1 _
      rw [← h1]
      simpa using ha

theorem count_nl_wsRun_le_append (u v : List Char) :
    ((u.takeWhile pyIsSpace).count '\n') ≤ (((u ++ v).takeWhile pyIsSpace).count '\n') := by
  induction u with
  | nil => simp
  | cons c u' ih =>
    by_cases hc : pyIsSpace c
    · rw [List.cons_append, List.takeWhile_cons_of_pos hc, List.takeWhile_cons_of_pos hc]
      simp only [List.count_cons]
      omega
    · rw [List.cons_append, List.takeWhile_cons_of_neg hc, List.takeWhile_cons_of_neg hc]

theorem blankMatchAt_append {u : List Char} (v : List Char)
    (h : blankMatchAt u = true) : blankMatchAt (u ++ v) = true := by
  cases u with
  | nil => simp [blankMatchAt] at h
  | cons c u' =>
    unfold blankMatchAt wsRun at h ⊢
    simp only [List.head?_cons, List.cons_append] at h ⊢
    simp only [Bool.and_eq_true, decide_eq_true_eq] at h ⊢
    refine ⟨h.1, ?_⟩
    have hmono := count_nl_wsRun_le_append (c :: u') v
    rw [List.cons_append] at hmono
    omega

theorem noTriple_append_right {u v : List Char} (h : noTriple (u ++ v) = true) :
    noTriple v = true := by
  induction u with
  | nil => simpa using h
  | cons c u' ih =>
    rw [List.cons_append, noTriple_cons, Bool.and_eq_true] at h
    exact ih h.2

theorem noTriple_append_left {u v : List Char} (h : noTriple (u ++ v) = true) :
    noTriple u = true := by
  induction u with
  | nil => rfl
  | cons c u' ih =>
    rw [List.cons_append, noTriple_cons, Bool.and_eq_true] at h
    rw [noTriple_cons, Bool.and_eq_true]
    refine ⟨?_, ih h.2⟩
    have h1 := h.1
    by_cases hbm : blankMatchAt (c :: u') = true
    · have hv := blankMatchAt_append v hbm
      rw [List.cons_append] at hv
      rw [hv] at h1
      simp at h1
    · simp only [Bool.not_eq_true] at hbm
      rw [hbm]
      rfl

theorem blankMatchAt_false_of_count {c : Char} {w : List Char}
    (h : (((c :: w).takeWhile pyIsSpace).count '\n') ≤ 2) :
    blankMatchAt (c :: w) = false := by
  unfold blankMatchAt wsRun
  have h2 : decide (3 ≤ (((c :: w).takeWhile pyIsSpace).count '\n')) = false := by
    simp only [decide_eq_false_iff_not]
    omega
  rw [h2, Bool.and_false]

theorem blankMatchAt_true_parts {c : Char} {w : List Char}
    (h : blankMatchAt (c :: w) = true) :
    c = '\n' ∧ 3 ≤ (((c :: w).takeWhile pyIsSpace).count '\n') := by
  unfold blankMatchAt wsRun at h
  simp only [List.head?_cons, Bool.and_eq_true, decide_eq_true_eq] at h
  exact ⟨by injection h.1, h.2⟩

/-- Splitting a list at the last element failing `p` (scanning from the
right): dropping the length of the right-scan remainder leaves the reversed
right-scan prefix. -/
theorem drop_length_dropWhile_reverse (R : List Char) (p : Char → Bool) :
    R.drop ((R.reverse.dropWhile p).length) = (R.reverse.takeWhile p).reverse := by
  have h0 := congrArg List.reverse
    (List.takeWhile_append_dropWhile (p := p) (l := R.reverse))
  rw [List.reverse_append, List.reverse_reverse] at h0
  have h1 := congrArg
    (fun X : List Char => X.drop ((R.reverse.dropWhile p).length)) h0
  simp only [] at h1
  rw [← h1]
  rw [← List.length_reverse (R.reverse.dropWhile p)]
  exact List.drop_left _ _

/-- After the matched span of `\n\s*\n\s*\n` (up to the last newline of the
whitespace run), the remaining leading whitespace contains no newline. -/
theorem count_nl_wsRun_drop_blankMatchLen (s : List Char) :
    (((s.drop (blankMatchLen s)).takeWhile pyIsSpace).count '\n') = 0 := by
  have hlen : blankMatchLen s =
      ((s.takeWhile pyIsSpace).reverse.dropWhile (fun c => !(c = '\n'))).length := by
    have hlenrun : (s.takeWhile pyIsSpace).length =
        ((s.takeWhile pyIsSpace).reverse.takeWhile (fun c => !(c = '\n'))).length +
        ((s.takeWhile pyIsSpace).reverse.dropWhile (fun c => !(c = '\n'))).length := by
      rw [← List.length_append,
        List.takeWhile_append_dropWhile (p := fun c => !(c = '\n'))
          (l := (s.takeWhile pyIsSpace).reverse),
        List.length_reverse]
    unfold blankMatchLen trailingNonNL wsRun
    omega
  have hdropRun : (s.takeWhile pyIsSpace).drop (blankMatchLen s) =
      ((s.takeWhile pyIsSpace).reverse.takeWhile (fun c => !(c = '\n'))).reverse := by
    rw [hlen]
    exact drop_length_dropWhile_reverse _ _
  have hdropS : s.drop (blankMatchLen s) =
      ((s.takeWhile pyIsSpace).reverse.takeWhile (fun c => !(c = '\n'))).reverse ++
      s.dropWhile pyIsSpace := by
    have h1 := congrArg (fun X : List Char => X.drop (blankMatchLen s))
      (List.takeWhile_append_dropWhile (p := pyIsSpace) (l := s))
    simp only [] at h1
    rw [← h1, List.drop_append_eq_append_drop, hdropRun]
    have h2 : blankMatchLen s - (s.takeWhile pyIsSpace).length = 0 := by
      unfold blankMatchLen trailingNonNL wsRun
      omega
    rw [h2, List.drop_zero]
  rw [hdropS]
  have hTws : ∀ c ∈ ((s.takeWhile pyIsSpace).reverse.takeWhile
      (fun c => !(c = '\n'))).reverse, pyIsSpace c = true := by
    intro c hc
    have h1 := List.mem_reverse.mp hc
    have h2 := mem_of_mem_takeWhile h1
    have h3 := List.mem_reverse.mp h2
    exact mem_takeWhile_pred h3
  rw [takeWhile_append_all _ hTws, takeWhile_dropWhile_nil, List.append_nil]
  rw [List.count_eq_zero]
  intro hmem
  have h1 := List.mem_reverse.mp hmem
  have h2 := mem_takeWhile_pred h1
  simp at h2

/-- The blank-line collapse never increases the newline count of the
leading whitespace run. -/
theorem count_nl_wsRun_collapse_le (s : List Char) :
    (((collapseBlank s).takeWhile pyIsSpace).count '\n') ≤
      ((s.takeWhile pyIsSpace).count '\n') := by
  induction s using collapseBlank.induct with
  | case1 => simp [collapseBlank]
  | case2 c cs hb ih =>
    rw [collapseBlank, dif_pos hb]
    have hP3 := count_nl_wsRun_drop_blankMatchLen (c :: cs)
    have hparts := blankMatchAt_true_parts hb
    rw [List.takeWhile_cons_of_pos (show pyIsSpace '\n' = true from rfl),
      List.takeWhile_cons_of_pos (show pyIsSpace '\n' = true from rfl),
      List.count_cons_self, List.count_cons_self]
    omega
  | case3 c cs hb ih =>
    rw [collapseBlank, dif_neg hb]
    by_cases hc : pyIsSpace c
    · rw [List.takeWhile_cons_of_pos hc, List.takeWhile_cons_of_pos hc]
      by_cases hcn : c = '\n'
      · subst hcn
        rw [List.count_cons_self, List.count_cons_self]
        omega
      · rw [List.count_cons_of_ne (fun hx => hcn hx.symm),
          List.count_cons_of_ne (fun hx => hcn hx.symm)]
        exact ih
    · rw [List.takeWhile_cons_of_neg hc, List.takeWhile_cons_of_neg hc]

theorem collapseBlank_eq_self_of_noTriple (s : List Char) (h : noTriple s = true) :
    collapseBlank s = s := by
  induction s using collapseBlank.induct with
  | case1 => simp [collapseBlank]
  | case2 c cs hb ih =>
    rw [noTriple_cons, Bool.and_eq_true] at h
    rw [hb] at h
    simp at h
  | case3 c cs hb ih =>
    rw [noTriple_cons, Bool.and_eq_true] at h
    rw [collapseBlank, dif_neg hb, ih h.2]

/-- The output of the blank-line collapse contains no further match. -/
theorem noTriple_collapseBlank (s : List Char) : noTriple (collapseBlank s) = true := by
  induction s using collapseBlank.induct with
  | case1 => simp [collapseBlank, noTriple]
  | case2 c cs hb ih =>
    rw [collapseBlank, dif_pos hb]
    have hP3 := count_nl_wsRun_drop_blankMatchLen (c :: cs)
    have hP4 := count_nl_wsRun_collapse_le ((c :: cs).drop (blankMatchLen (c :: cs)))
    rw [noTriple_cons, noTriple_cons, Bool.and_eq_true, Bool.and_eq_true]
    refine ⟨?_, ?_, ih⟩
    · have hbm : blankMatchAt ('\n' :: '\n' ::
          collapseBlank ((c :: cs).drop (blankMatchLen (c :: cs)))) = false := by
        apply blankMatchAt_false_of_count
        rw [List.takeWhile_cons_of_pos (show pyIsSpace '\n' = true from rfl),
          List.takeWhile_cons_of_pos (show pyIsSpace '\n' = true from rfl),
          List.count_cons_self, List.count_cons_self]
        omega
      rw [hbm]
      rfl
    · have hbm : blankMatchAt ('\n' ::
          collapseBlank ((c :: cs).drop (blankMatchLen (c :: cs)))) = false := by
        apply blankMatchAt_false_of_count
        rw [List.takeWhile_cons_of_pos (show pyIsSpace '\n' = true from rfl),
          List.count_cons_self]
        omega
      rw [hbm]
      rfl
  | case3 c cs hb ih =>
    rw [collapseBlank, dif_neg hb]
    rw [noTriple_cons, Bool.and_eq_true]
    refine ⟨?_, ih⟩
    by_cases hc : c = '\n'
    · subst hc
      have hble : ((('\n' :: cs).takeWhile pyIsSpace).count '\n') ≤ 2 := by
        by_contra hgt
        push_neg at hgt
        apply hb
        unfold blankMatchAt wsRun
        simp only [List.head?_cons, Bool.and_eq_true, decide_eq_true_eq]
        exact ⟨trivial, by omega⟩
      have hcs : ((cs.takeWhile pyIsSpace).count '\n') ≤ 1 := by
        rw [List.takeWhile_cons_of_pos (show pyIsSpace '\n' = true from rfl),
          List.count_cons_self] at hble
        omega
      have hP4 := count_nl_wsRun_collapse_le cs
      have hbm : blankMatchAt ('\n' :: collapseBlank cs) = false := by
        apply blankMatchAt_false_of_count
        rw [List.takeWhile_cons_of_pos (show pyIsSpace '\n' = true from rfl),
          List.count_cons_self]
        omega
      rw [hbm]
      rfl
    · have hbm : blankMatchAt (c :: collapseBlank cs) = false := by
        unfold blankMatchAt
        have hhd : decide ((c :: collapseBlank cs).head? = some '\n') = false := by
          simp [hc]
        rw [hhd, Bool.false_and]
      rw [hbm]
      rfl

/-- `dropWhile ws t` consists of the stripped text followed by the trailing
whitespace. -/
theorem dropWhile_eq_pyStrip_append (s : List Char) :
    s.dropWhile pyIsSpace =
      pyStrip s ++ ((s.dropWhile pyIsSpace).reverse.takeWhile pyIsSpace).reverse := by
  unfold pyStrip
  have h0 := congrArg List.reverse
    (List.takeWhile_append_dropWhile (p := pyIsSpace) (l := (s.dropWhile pyIsSpace).reverse))
  rw [List.reverse_append, List.reverse_reverse] at h0
  exact h0.symm

theorem pyStrip_infix (t : List Char) :
    ∃ a b, t = a ++ (pyStrip t ++ b) := by
  refine ⟨t.takeWhile pyIsSpace,
    ((t.dropWhile pyIsSpace).reverse.takeWhile pyIsSpace).reverse, ?_⟩
  conv_lhs => rw [← List.takeWhile_append_dropWhile (p := pyIsSpace) (l := t)]
  rw [← dropWhile_eq_pyStrip_append]

theorem noTriple_pyStrip (t : List Char) (h : noTriple t = true) :
    noTriple (pyStrip t) = true := by
  obtain ⟨a, b, hab⟩ := pyStrip_infix t
  rw [hab] at h
  exact noTriple_append_left (noTriple_append_right h)

theorem pyStrip_idem (s : List Char) : pyStrip (pyStrip s) = pyStrip s := by
  cases hps : pyStrip s with
  | nil => rfl
  | cons c w =>
    have hA := dropWhile_eq_pyStrip_append s
    rw [hps] at hA
    have hAc : s.dropWhile pyIsSpace =
        c :: (w ++ ((s.dropWhile pyIsSpace).reverse.takeWhile pyIsSpace).reverse) :=
      hA.trans (List.cons_append _ _ _)
    have hc : pyIsSpace c = false := dropWhile_head_neg hAc
    have hdrop1 : (pyStrip s).dropWhile pyIsSpace = pyStrip s := by
      rw [hps, List.dropWhile_cons_of_neg (by simp [hc])]
    have hrev : (pyStrip s).reverse = (s.dropWhile pyIsSpace).reverse.dropWhile pyIsSpace := by
      unfold pyStrip
      rw [List.reverse_reverse]
    rw [← hps]
    show ((((pyStrip s).dropWhile pyIsSpace).reverse).dropWhile pyIsSpace).reverse = pyStrip s
    rw [hdrop1, hrev, dropWhile_idem, ← hrev, List.reverse_reverse]

/-- C6 (amended): the filter is idempotent on every input whose once-filtered
text is a fixed point of the six tag-removal passes — in particular the
blank-line collapse and the strip never need a second round.  (On balanced
inputs in general idempotence fails: removing a pair can splice the
surrounding fragments into a new pair, see the counterexample.) -/
theorem remove_thinking_tags_idempotent_amended (x : String)
    (hfix : removeTagPasses (removeThinkingTagsList x.toList) =
      removeThinkingTagsList x.toList) :
    remove_thinking_tags true (remove_thinking_tags true x) =
      remove_thinking_tags true x := by
  unfold remove_thinking_tags
  rw [if_neg (by simp), if_neg (by simp)]
  have htl : (String.mk (removeThinkingTagsList x.toList)).toList =
      removeThinkingTagsList x.toList := rfl
  rw [htl]
  congr 1
  unfold removeThinkingTagsList at hfix ⊢
  rw [hfix]
  have h1 := noTriple_collapseBlank (removeTagPasses x.toList)
  have h2 := noTriple_pyStrip _ h1
  rw [collapseBlank_eq_self_of_noTriple _ h2]
  exact pyStrip_idem _

/-- Witness for C6 (amended): `"<think>a</think>hi"` filters to `"hi"`,
which the tag passes leave unchanged. -/
theorem remove_thinking_tags_idempotent_amended_witness :
    remove_thinking_tags true (remove_thinking_tags true "<think>a</think>hi") =
      remove_thinking_tags true "<think>a</think>hi" :=
  remove_thinking_tags_idempotent_amended "<think>a</think>hi" (by
    have hev : removeThinkingTagsList "<think>a</think>hi".toList = "hi".toList := by
      simp [removeThinkingTagsList, removeTagPasses, removePairsCI, removeSelfCloseCI,
        subAllCI, findIdxCI, ciStartsWith, ciEq, collapseBlank, blankMatchAt, wsRun,
        pyIsSpace, pyStrip, thinkOpenTag, thinkCloseTag, bracketOpenTag, bracketCloseTag,
        thinkSelfCloseHead, thinkSelfCloseTail, bracketSelfCloseHead, bracketSelfCloseTail,
        beginBoxTag, endBoxTag, blankMatchLen, trailingNonNL]
    rw [hev]
    simp [removeTagPasses, removePairsCI, removeSelfCloseCI, subAllCI, findIdxCI,
      ciStartsWith, ciEq, thinkOpenTag, thinkCloseTag, bracketOpenTag, bracketCloseTag,
      thinkSelfCloseHead, thinkSelfCloseTail, bracketSelfCloseHead, bracketSelfCloseTail,
      beginBoxTag, endBoxTag])

/-- C6 counterexample: the input
`"<thi<think>a</think>nk>b</thi<think>c</think>nk>"` is balanced (2
occurrences each of `<think>` and `</think>`, none of the bracket dialect),
but filtering once yields `"<think>b</think>"` (the two removals splice the
outer fragments into a fresh pair, which the single pass never revisits)
and filtering twice yields `""`. -/
theorem filter_not_idempotent_counterexample :
    balancedTags "<thi<think>a</think>nk>b</thi<think>c</think>nk>".toList = true ∧
    remove_thinking_tags true
        (remove_thinking_tags true "<thi<think>a</think>nk>b</thi<think>c</think>nk>") ≠
      remove_thinking_tags true "<thi<think>a</think>nk>b</thi<think>c</think>nk>" := by
  constructor
  · simp [balancedTags, countOccCI, ciStartsWith, ciEq, thinkOpenTag, thinkCloseTag,
      bracketOpenTag, bracketCloseTag]
  · have h1 : remove_thinking_tags true "<thi<think>a</think>nk>b</thi<think>c</think>nk>"
        = "<think>b</think>" := by
      unfold remove_thinking_tags
      rw [if_neg (by simp)]
      have hev : removeThinkingTagsList
          "<thi<think>a</think>nk>b</thi<think>c</think>nk>".toList
          = "<think>b</think>".toList := by
        simp [removeThinkingTagsList, removeTagPasses, removePairsCI, removeSelfCloseCI,
          subAllCI, findIdxCI, ciStartsWith, ciEq, collapseBlank, blankMatchAt, wsRun,
          pyIsSpace, pyStrip, thinkOpenTag, thinkCloseTag, bracketOpenTag, bracketCloseTag,
          thinkSelfCloseHead, thinkSelfCloseTail, bracketSelfCloseHead, bracketSelfCloseTail,
          beginBoxTag, endBoxTag, blankMatchLen, trailingNonNL]
      rw [hev]
      exact String.ext rfl
    have h2 : remove_thinking_tags true "<think>b</think>" = "" := by
      unfold remove_thinking_tags
      rw [if_neg (by simp)]
      have hev : removeThinkingTagsList "<think>b</think>".toList = "".toList := by
        simp [removeThinkingTagsList, removeTagPasses, removePairsCI, removeSelfCloseCI,
          subAllCI, findIdxCI, ciStartsWith, ciEq, collapseBlank, blankMatchAt, wsRun,
          pyIsSpace, pyStrip, thinkOpenTag, thinkCloseTag, bracketOpenTag, bracketCloseTag,
          thinkSelfCloseHead, thinkSelfCloseTail, bracketSelfCloseHead, bracketSelfCloseTail,
          beginBoxTag, endBoxTag, blankMatchLen, trailingNonNL]
      rw [hev]
      exact String.ext rfl
    rw [h1, h2]
    decide

/-! ## Properties of the box-marker passes -/

theorem subAllCI_eq_self_of_not_contains (pat x : List Char)
    (h : containsCI pat x = false) : subAllCI pat x = x := by
  induction pat, x using subAllCI.induct with
  | case1 s => simp [subAllCI]
  | case2 p ps => simp [subAllCI]
  | case3 p ps c cs hm ih =>
    exfalso
    unfold containsCI at h
    rw [findIdxCI, if_pos hm] at h
    simp at h
  | case4 p ps c cs hm ih =>
    rw [subAllCI, if_neg hm]
    congr 1
    apply ih
    unfold containsCI at h ⊢
    rw [findIdxCI, if_neg hm] at h
    simpa using h

/-- C10 (amended): the two box-marker passes delete, case-insensitively and
unpaired, every occurrence found in their single left-to-right scan (a text
without occurrences is left unchanged, and occurrences present in the input
are removed, as in the concrete case below); a deletion can splice the
surrounding fragments into a new marker occurrence which is never revisited
and survives to the visible output (see the counterexample).  With filtering
disabled the filter is the identity on its input. -/
theorem box_marker_removal :
    (∀ x : String, remove_thinking_tags false x = x) ∧
    (∀ x : List Char, containsCI beginBoxTag x = false → subAllCI beginBoxTag x = x) ∧
    (∀ x : List Char, containsCI endBoxTag x = false → subAllCI endBoxTag x = x) ∧
    remove_thinking_tags true "A<|Begin_Of_Box|>B<|END_OF_BOX|>C" = "ABC" := by
  refine ⟨fun x => rfl, fun x h => subAllCI_eq_self_of_not_contains _ _ h,
    fun x h => subAllCI_eq_self_of_not_contains _ _ h, ?_⟩
  unfold remove_thinking_tags
  rw [if_neg (by simp)]
  have hev : removeThinkingTagsList "A<|Begin_Of_Box|>B<|END_OF_BOX|>C".toList
      = "ABC".toList := by
    simp [removeThinkingTagsList, removeTagPasses, removePairsCI, removeSelfCloseCI,
      subAllCI, findIdxCI, ciStartsWith, ciEq, collapseBlank, blankMatchAt, wsRun,
      pyIsSpace, pyStrip, thinkOpenTag, thinkCloseTag, bracketOpenTag, bracketCloseTag,
      thinkSelfCloseHead, thinkSelfCloseTail, bracketSelfCloseHead, bracketSelfCloseTail,
      beginBoxTag, endBoxTag, blankMatchLen, trailingNonNL]
  rw [hev]
  exact String.ext rfl

/-- Witness for C10 (amended) on a marker-free input. -/
theorem box_marker_removal_witness :
    subAllCI beginBoxTag "plain".toList = "plain".toList :=
  box_marker_removal.2.1 "plain".toList (by rfl)

/-- C10 counterexample: deleting the inner occurrence of
`<|begin_of_box|>` from `"<|begin_of_<|begin_of_box|>box|>"` splices the
surrounding fragments into a new occurrence, and the visible output still
contains the marker. -/
theorem box_marker_counterexample :
    containsCI beginBoxTag
      (remove_thinking_tags true "<|begin_of_<|begin_of_box|>box|>").toList = true := by
  have h1 : remove_thinking_tags true "<|begin_of_<|begin_of_box|>box|>"
      = "<|begin_of_box|>" := by
    unfold remove_thinking_tags
    rw [if_neg (by simp)]
    have hev : removeThinkingTagsList "<|begin_of_<|begin_of_box|>box|>".toList
        = "<|begin_of_box|>".toList := by
      simp [removeThinkingTagsList, removeTagPasses, removePairsCI, removeSelfCloseCI,
        subAllCI, findIdxCI, ciStartsWith, ciEq, collapseBlank, blankMatchAt, wsRun,
        pyIsSpace, pyStrip, thinkOpenTag, thinkCloseTag, bracketOpenTag, bracketCloseTag,
        thinkSelfCloseHead, thinkSelfCloseTail, bracketSelfCloseHead, bracketSelfCloseTail,
        beginBoxTag, endBoxTag, blankMatchLen, trailingNonNL]
    rw [hev]
    exact String.ext rfl
  rw [h1]
  rfl

end Jarvis
